import Mathlib

/-!
Verification of the calculation cluster of a His-tag protein lab toolkit.

The program (`app.py`) contains a cluster of pure calculation functions:
sequence cleaning, molecular-weight summation, His-run scanning, C1V1
dilution math, recipe assembly, a gel-migration model and a gel
recommendation table.  This file embeds those functions over exact
rationals (reals for the logarithmic migration model) and proves the
specified properties about them.
-/

namespace HisTag

/-- Round a rational to `n` decimal places, modelling Python's
`round(x, n)` on the ideal (exact) value. -/
def roundTo (n : ℕ) (x : ℚ) : ℚ :=
  ((round (x * 10 ^ n) : ℤ) : ℚ) / 10 ^ n

/-- The `AA_RESIDUE_MW` dictionary: average residue masses (Da) for the
20 standard amino acids; `none` for any other character (a lookup miss). -/
def residueMass (c : Char) : Option ℚ :=
  match c with
  | 'A' => some 71.08
  | 'R' => some 156.19
  | 'N' => some 114.10
  | 'D' => some 115.09
  | 'C' => some 103.15
  | 'E' => some 129.12
  | 'Q' => some 128.13
  | 'G' => some 57.05
  | 'H' => some 137.14
  | 'I' => some 113.16
  | 'L' => some 113.16
  | 'K' => some 128.17
  | 'M' => some 131.19
  | 'F' => some 147.18
  | 'P' => some 97.12
  | 'S' => some 87.08
  | 'T' => some 101.11
  | 'W' => some 186.21
  | 'Y' => some 163.18
  | 'V' => some 99.13
  | _ => none

/-- The water-mass constant `H2O = 18.015` Da. -/
def H2O : ℚ := 18.015

/-- `c1v1_ml(final_vol_ml, final_conc, stock_conc)`: C1V1 = C2V2 dilution;
returns 0 when the stock concentration is 0. -/
def c1v1_ml (final_vol_ml final_conc stock_conc : ℚ) : ℚ :=
  if stock_conc = 0 then 0 else final_conc * final_vol_ml / stock_conc

/-- `pct_vv_ml(final_vol_ml, final_pct, stock_pct)`: v/v percent dilution;
returns 0 when the stock percentage is 0. -/
def pct_vv_ml (final_vol_ml final_pct stock_pct : ℚ) : ℚ :=
  if stock_pct = 0 then 0 else final_pct / stock_pct * final_vol_ml

/-- `_recommend_gel(mw_kda)`: the static decision table from molecular
weight (kDa) to a (gel chemistry, gel percentage) pair. -/
def recommend_gel (mw_kda : ℚ) : String × ℚ :=
  if mw_kda ≤ 10 then ("Tricine", 16.5)
  else if mw_kda ≤ 25 then ("Tris-Glycine", 15.0)
  else if mw_kda ≤ 60 then ("Tris-Glycine", 12.0)
  else ("Tris-Glycine", 10.0)

/-- Sum of the residue masses of a character list; `none` on any lookup
miss (a `KeyError` in the source). -/
def sumMasses : List Char → Option ℚ
  | [] => some 0
  | c :: cs =>
    match residueMass c, sumMasses cs with
    | some m, some s => some (m + s)
    | _, _ => none

/-- `calc_mw_da(seq)`: 0.0 for the empty sequence, otherwise the residue
mass sum plus `H2O`, rounded to 2 decimal places. -/
def calc_mw_da (seq : List Char) : Option ℚ :=
  if seq = [] then some 0
  else (sumMasses seq).map (fun s => roundTo 2 (s + H2O))

/-- Every mass in the residue table is at least 57.05 (the glycine mass,
the smallest entry). -/
theorem residueMass_lb (c : Char) (m : ℚ) (h : residueMass c = some m) :
    57.05 ≤ m := by
  unfold residueMass at h
  split at h
  all_goals first
    | (injection h with h; rw [← h]; try norm_num)
    | exact Option.noConfusion h

/-- On a list all of whose characters are residue-table keys, `sumMasses`
returns the plain sum of the table masses. -/
theorem sumMasses_eq (seq : List Char) (hv : ∀ c ∈ seq, (residueMass c).isSome) :
    sumMasses seq = some ((seq.map (fun c => (residueMass c).getD 0)).sum) := by
  induction seq with
  | nil => simp [sumMasses]
  | cons c cs ih =>
    have hc : (residueMass c).isSome := hv c (List.mem_cons_self c cs)
    obtain ⟨m, hm⟩ := Option.isSome_iff_exists.mp hc
    have ih' := ih (fun x hx => hv x (List.mem_cons_of_mem _ hx))
    simp [sumMasses, hm, ih']

/-- Destructuring a successful `sumMasses` on a cons cell. -/
theorem sumMasses_cons (c : Char) (cs : List Char) (S : ℚ)
    (h : sumMasses (c :: cs) = some S) :
    ∃ m s, residueMass c = some m ∧ sumMasses cs = some s ∧ S = m + s := by
  cases hm : residueMass c with
  | none => simp [sumMasses, hm] at h
  | some m =>
    cases hs : sumMasses cs with
    | none => simp [sumMasses, hm, hs] at h
    | some s =>
      simp [sumMasses, hm, hs] at h
      exact ⟨m, s, rfl, rfl, h.symm⟩

/-- A successful `sumMasses` is non-negative, and at least 57.05 on a
non-empty list. -/
theorem sumMasses_lb (seq : List Char) (S : ℚ) (h : sumMasses seq = some S) :
    0 ≤ S ∧ (seq ≠ [] → 57.05 ≤ S) := by
  induction seq generalizing S with
  | nil =>
    simp [sumMasses] at h
    simp [← h]
  | cons c cs ih =>
    obtain ⟨m, s, hm, hs, hS⟩ := sumMasses_cons c cs S h
    have h1 := residueMass_lb c m hm
    have h2 := (ih s hs).1
    constructor
    · rw [hS]; linarith
    · intro _; rw [hS]; linarith

/-- Appending one residue adds its mass to a successful `sumMasses`. -/
theorem sumMasses_append_single (seq : List Char) (r : Char) (m S : ℚ)
    (hr : residueMass r = some m) (hs : sumMasses seq = some S) :
    sumMasses (seq ++ [r]) = some (S + m) := by
  induction seq generalizing S with
  | nil =>
    simp only [sumMasses, Option.some.injEq] at hs
    simp [sumMasses, hr, ← hs]
  | cons c cs ih =>
    obtain ⟨mc, s, hm, hcs, hS⟩ := sumMasses_cons c cs S hs
    have ih' := ih s hcs
    simp only [List.cons_append]
    simp [sumMasses, hm, ih', hS, add_assoc]

/-- The rounding error of `roundTo n` is at most half of the last kept
decimal place. -/
theorem abs_roundTo_sub (n : ℕ) (x : ℚ) :
    |roundTo n x - x| ≤ 1 / (2 * 10 ^ n) := by
  have h10 : (0 : ℚ) < 10 ^ n := by positivity
  have h := abs_sub_round (x * 10 ^ n)
  rw [abs_sub_comm] at h
  have key : roundTo n x - x
      = (((round (x * 10 ^ n) : ℤ) : ℚ) - x * 10 ^ n) / 10 ^ n := by
    rw [roundTo, sub_div]
    congr 1
    rw [mul_div_assoc, div_self (ne_of_gt h10), mul_one]
  have goal10 : (1 : ℚ) / (2 * 10 ^ n) = (1 / 2) / 10 ^ n := by ring
  rw [key, goal10, abs_div, abs_of_pos h10]
  gcongr

/-- C3: `calc_mw_da` returns 0 on the empty sequence; on a non-empty
sequence of residue-table keys it returns the sum of the table masses plus
the water constant 18.015, rounded to 2 decimal places; and the result is
0 exactly when the sequence is empty. -/
theorem calc_mw_da_spec (seq : List Char)
    (hv : ∀ c ∈ seq, (residueMass c).isSome) :
    calc_mw_da [] = some 0 ∧
    (seq ≠ [] → calc_mw_da seq =
      some (roundTo 2 ((seq.map (fun c => (residueMass c).getD 0)).sum + H2O))) ∧
    (calc_mw_da seq = some 0 ↔ seq = []) := by
  have h0 : calc_mw_da [] = some 0 := by simp [calc_mw_da]
  have h2 : seq ≠ [] → calc_mw_da seq =
      some (roundTo 2 ((seq.map (fun c => (residueMass c).getD 0)).sum + H2O)) := by
    intro hne
    rw [calc_mw_da, if_neg hne, sumMasses_eq seq hv]
    rfl
  refine ⟨h0, h2, ?_, fun h => h ▸ h0⟩
  intro hz
  by_contra hne
  rw [h2 hne] at hz
  have hz' := Option.some.inj hz
  have hlb := (sumMasses_lb seq _ (sumMasses_eq seq hv)).2 hne
  have hr := abs_roundTo_sub 2
    ((seq.map (fun c => (residueMass c).getD 0)).sum + H2O)
  rw [abs_le] at hr
  have hH : H2O = 18.015 := rfl
  have he : (1 : ℚ) / (2 * 10 ^ 2) = 1 / 200 := by norm_num
  rw [he] at hr
  rw [hz'] at hr
  linarith [hr.1]

/-- C10: appending a residue-table key to a sequence strictly increases
the computed molecular weight, even after the 2-decimal rounding. -/
theorem calc_mw_strict_mono (seq : List Char) (r : Char) (m1 m2 : ℚ)
    (hv : ∀ c ∈ seq, (residueMass c).isSome)
    (hr : (residueMass r).isSome)
    (h1 : calc_mw_da seq = some m1)
    (h2 : calc_mw_da (seq ++ [r]) = some m2) :
    m1 < m2 := by
  obtain ⟨mr, hmr⟩ := Option.isSome_iff_exists.mp hr
  have hmr_lb := residueMass_lb r mr hmr
  have hH : H2O = 18.015 := rfl
  have he : (1 : ℚ) / (2 * 10 ^ 2) = 1 / 200 := by norm_num
  by_cases hseq : seq = []
  · subst hseq
    have h00 : calc_mw_da ([] : List Char) = some 0 := by simp [calc_mw_da]
    rw [h00] at h1
    have h1' : m1 = 0 := (Option.some.inj h1).symm
    have happ := sumMasses_append_single [] r mr 0 hmr (by rfl)
    rw [calc_mw_da, if_neg (by simp), happ] at h2
    simp only [Option.map_some', Option.some.injEq] at h2
    have hb := abs_roundTo_sub 2 (0 + mr + H2O)
    rw [abs_le, he] at hb
    rw [h2] at hb
    rw [h1']
    linarith [hb.1]
  · have heq := sumMasses_eq seq hv
    rw [calc_mw_da, if_neg hseq, heq] at h1
    simp only [Option.map_some', Option.some.injEq] at h1
    have happ := sumMasses_append_single seq r mr _ hmr heq
    rw [calc_mw_da, if_neg (by simp), happ] at h2
    simp only [Option.map_some', Option.some.injEq] at h2
    have hb1 := abs_roundTo_sub 2
      ((seq.map (fun c => (residueMass c).getD 0)).sum + H2O)
    have hb2 := abs_roundTo_sub 2
      ((seq.map (fun c => (residueMass c).getD 0)).sum + mr + H2O)
    rw [abs_le, he] at hb1 hb2
    rw [h1] at hb1
    rw [h2] at hb2
    linarith [hb1.2, hb2.1]

theorem calc_mw_da_spec_witness :
    calc_mw_da [] = some 0 ∧
    ((['M', 'H', 'H', 'H', 'H', 'H', 'H'] : List Char) ≠ [] →
      calc_mw_da ['M', 'H', 'H', 'H', 'H', 'H', 'H'] =
        some (roundTo 2 (((['M', 'H', 'H', 'H', 'H', 'H', 'H'] : List Char).map
          (fun c => (residueMass c).getD 0)).sum + H2O))) ∧
    (calc_mw_da ['M', 'H', 'H', 'H', 'H', 'H', 'H'] = some 0 ↔
      (['M', 'H', 'H', 'H', 'H', 'H', 'H'] : List Char) = []) :=
  calc_mw_da_spec ['M', 'H', 'H', 'H', 'H', 'H', 'H'] (by decide)

theorem calc_mw_strict_mono_witness : (75.07 : ℚ) < 146.15 :=
  calc_mw_strict_mono ['G'] 'A' 75.07 146.15 (by decide) (by decide)
    (by norm_num [calc_mw_da, sumMasses, residueMass, H2O, roundTo, round_eq])
    (by norm_num [calc_mw_da, sumMasses, residueMass, H2O, roundTo, round_eq]
        ; decide)

/-- An input row of `recipe_df`: the `Stock` and `Target` fields model the
optional dictionary entries read with `r.get(key, "-")`; `Target` models
the "Target (final)" column. -/
structure RowIn where
  Component : String
  Stock : Option String
  Target : Option String
  vol_ml : ℚ

/-- An output row of `recipe_df` (one row of the returned data frame). -/
structure RowOut where
  Component : String
  Stock : String
  Target : String
  volume : ℚ

/-- `recipe_df(final_vol_ml, rows)`: copies the component rows in order,
appends the diluent ("DW") row with volume max(0, finalVolume − sum) and
the sentinel target label "to volume", then rounds every volume to 4
decimal places. -/
def recipe_df (final_vol_ml : ℚ) (rows : List RowIn) : List RowOut :=
  let used := (rows.map (fun r => r.vol_ml)).sum
  let dw := max 0 (final_vol_ml - used)
  let out := rows.map (fun r =>
      (⟨r.Component, r.Stock.getD "-", r.Target.getD "-", r.vol_ml⟩ : RowOut))
    ++ [(⟨"DW", "-", "to volume", dw⟩ : RowOut)]
  out.map (fun r => (⟨r.Component, r.Stock, r.Target, roundTo 4 r.volume⟩ : RowOut))

/-- The volumes of a recipe are the rounded input volumes followed by the
rounded diluent volume. -/
theorem recipe_df_volumes (fv : ℚ) (rows : List RowIn) :
    (recipe_df fv rows).map (fun r => r.volume) =
      ((rows.map (fun r => r.vol_ml))
        ++ [max 0 (fv - (rows.map (fun r => r.vol_ml)).sum)]).map (roundTo 4) := by
  simp [recipe_df, List.map_map, List.map_append, Function.comp]

/-- Rounding every element of a list to 4 decimal places changes the sum
by at most half a unit in the last place per element. -/
theorem sum_roundTo_err (l : List ℚ) :
    |(l.map (roundTo 4)).sum - l.sum| ≤ l.length / 20000 := by
  induction l with
  | nil => simp
  | cons v t ih =>
    have hv := abs_roundTo_sub 4 v
    have he : (1 : ℚ) / (2 * 10 ^ 4) = 1 / 20000 := by norm_num
    rw [he] at hv
    simp only [List.map_cons, List.sum_cons, List.length_cons]
    have key : roundTo 4 v + (t.map (roundTo 4)).sum - (v + t.sum)
        = (roundTo 4 v - v) + ((t.map (roundTo 4)).sum - t.sum) := by ring
    rw [key]
    calc |(roundTo 4 v - v) + ((t.map (roundTo 4)).sum - t.sum)|
        ≤ |roundTo 4 v - v| + |(t.map (roundTo 4)).sum - t.sum| := abs_add _ _
      _ ≤ 1 / 20000 + t.length / 20000 := add_le_add hv ih
      _ = (t.length + 1) / 20000 := by ring
      _ = ((t.length + 1 : ℕ) : ℚ) / 20000 := by push_cast; ring

/-- The four-component input on which the claimed 0.0001 tolerance of the
recipe invariant fails. -/
def c1Rows : List RowIn :=
  [⟨"c1", none, none, 0.00006⟩, ⟨"c2", none, none, 0.00006⟩,
   ⟨"c3", none, none, 0.00006⟩, ⟨"c4", none, none, 0.00006⟩]

/-- C1 counterexample: four components of 0.00006 mL in a 1 mL batch sum
(after the 4-decimal rounding of every row) to 1.0002 mL, which misses the
final volume by 0.0002 > 0.0001. -/
theorem recipe_tolerance_counterexample :
    (c1Rows.map (fun r => r.vol_ml)).sum ≤ 1 ∧
    ((recipe_df 1 c1Rows).map (fun r => r.volume)).sum = 1.0002 ∧
    ¬ |((recipe_df 1 c1Rows).map (fun r => r.volume)).sum - 1| ≤ 0.0001 := by
  have hvol : ((recipe_df 1 c1Rows).map (fun r => r.volume)).sum = 1.0002 := by
    rw [recipe_df_volumes]
    norm_num [c1Rows, roundTo, round_eq, max_def]
  refine ⟨by norm_num [c1Rows], hvol, ?_⟩
  rw [hvol]
  have habs : |(1.0002 : ℚ) - 1| = 0.0002 := by
    have h2 : (1.0002 : ℚ) - 1 = 0.0002 := by norm_num
    rw [h2, abs_of_pos]
    norm_num
  rw [habs]
  norm_num

/-- C1 amended: whenever the component volumes sum to at most the final
volume, the recipe is the component rows in input order (volumes rounded
to 4 decimal places) followed by the diluent row labelled "to volume" with
volume finalVolume − sum rounded to 4 decimal places, and the sum of all
output volumes equals finalVolume within (number of rows) × 0.00005,
i.e. (length rows + 1) / 20000. -/
theorem recipe_df_spec (fv : ℚ) (rows : List RowIn)
    (h : (rows.map (fun r => r.vol_ml)).sum ≤ fv) :
    recipe_df fv rows =
      rows.map (fun r =>
        (⟨r.Component, r.Stock.getD "-", r.Target.getD "-",
          roundTo 4 r.vol_ml⟩ : RowOut))
      ++ [(⟨"DW", "-", "to volume",
          roundTo 4 (fv - (rows.map (fun r => r.vol_ml)).sum)⟩ : RowOut)] ∧
    |((recipe_df fv rows).map (fun r => r.volume)).sum - fv|
      ≤ (rows.length + 1) / 20000 := by
  have hmax : max 0 (fv - (rows.map (fun r => r.vol_ml)).sum)
      = fv - (rows.map (fun r => r.vol_ml)).sum :=
    max_eq_right (sub_nonneg.mpr h)
  constructor
  · simp [recipe_df, List.map_map, List.map_append, Function.comp, hmax]
  · rw [recipe_df_volumes, hmax]
    have hsum : ((rows.map (fun r => r.vol_ml))
        ++ [fv - (rows.map (fun r => r.vol_ml)).sum]).sum = fv := by
      simp
    have herr := sum_roundTo_err
      ((rows.map (fun r => r.vol_ml)) ++ [fv - (rows.map (fun r => r.vol_ml)).sum])
    rw [hsum] at herr
    simp only [List.length_append, List.length_map, List.length_cons,
      List.length_nil] at herr
    convert herr using 2
    push_cast
    ring

theorem recipe_df_spec_witness :
    recipe_df 10 [(⟨"NaCl", none, none, 1.8⟩ : RowIn)] =
      [(⟨"NaCl", "-", "-", roundTo 4 1.8⟩ : RowOut),
       (⟨"DW", "-", "to volume", roundTo 4 (10 - (1.8 + 0))⟩ : RowOut)] ∧
    |((recipe_df 10 [(⟨"NaCl", none, none, 1.8⟩ : RowIn)]).map
        (fun r => r.volume)).sum - 10| ≤ (1 + 1) / 20000 := by
  have h := recipe_df_spec 10 [(⟨"NaCl", none, none, 1.8⟩ : RowIn)] (by norm_num)
  simpa using h

/-- The line-break characters of Python `str.splitlines`: `\n`, `\r`,
`\v`, `\f`, the file/group/record separators, NEL, and the Unicode line
and paragraph separators (`\r\n` is treated as a single break by the
splitter itself). -/
def isLineBreak (c : Char) : Bool :=
  c == '\n' || c == '\r' || c == '\x0b' || c == '\x0c' ||
  c == '\x1c' || c == '\x1d' || c == '\x1e' || c == '\x85' ||
  c == '\u2028' || c == '\u2029'

/-- The whitespace stripped by `str.strip` that can occur inside a line
produced by `splitlines`: the `str.isspace` characters minus the line
breaks, i.e. tab, `\x1f`, space, no-break space, ogham space mark, the
`\u2000`-`\u200a` spaces, narrow no-break space, medium mathematical
space and ideographic space. -/
def isSpaceChar (c : Char) : Bool :=
  c == '\t' || c == '\x1f' || c == ' ' || c == '\xa0' || c == '\u1680' ||
  decide (0x2000 ≤ c.toNat ∧ c.toNat ≤ 0x200a) ||
  c == '\u202f' || c == '\u205f' || c == '\u3000'

/-- Single pass of `str.splitlines`: `prevCR` records whether the previous
character was a `\r` whose break has already been emitted, so that a
following `\n` is swallowed (`\r\n` is one break). -/
def splitLinesAux : Bool → List Char → List (List Char)
  | _, [] => [[]]
  | prevCR, c :: cs =>
    if prevCR ∧ c = '\n' then splitLinesAux false cs
    else if isLineBreak c then [] :: splitLinesAux (c == '\r') cs
    else
      match splitLinesAux false cs with
      | [] => [[c]]
      | l :: ls => (c :: l) :: ls

/-- `str.splitlines`: split raw text into lines at line breaks, with
`\r\n` counting as one break.  Unlike Python this emits a final empty
segment after a trailing break (and one empty line for empty input),
which the caller cannot observe: an empty line is not a header and
contributes no characters. -/
def splitLines (raw : List Char) : List (List Char) :=
  splitLinesAux false raw

/-- `line.strip().startswith(">")`: a FASTA header line. -/
def isHeaderLine (line : List Char) : Bool :=
  match line.dropWhile isSpaceChar with
  | [] => false
  | c :: _ => c == '>'

/-- The character class of the regex `[A-Z]`. -/
def isUpperAZ (c : Char) : Bool :=
  decide (65 ≤ c.toNat ∧ c.toNat ≤ 90)

/-- Python `str.upper()` per code point, as observed through the
subsequent `[^A-Z]` deletion: every character whose Unicode uppercase
mapping contains a Latin capital is mapped in full, including the
one-to-many mappings of SpecialCasing.txt (sharp s, n preceded by
apostrophe, j with caron, h/t/w/y with diacritic, a with right half
ring, the Latin ligatures) and the two simple mappings from outside
a-z (dotless i, long s); a character whose uppercase contains no Latin
capital is kept unchanged, which the `[^A-Z]` deletion cannot
distinguish from the true mapping. -/
def pyUpper (c : Char) : List Char :=
  match c with
  | '\u00df' => ['S', 'S']
  | '\u0131' => ['I']
  | '\u0149' => ['\u02bc', 'N']
  | '\u017f' => ['S']
  | '\u01f0' => ['J', '\u030c']
  | '\u1e96' => ['H', '\u0331']
  | '\u1e97' => ['T', '\u0308']
  | '\u1e98' => ['W', '\u030a']
  | '\u1e99' => ['Y', '\u030a']
  | '\u1e9a' => ['A', '\u02be']
  | '\ufb00' => ['F', 'F']
  | '\ufb01' => ['F', 'I']
  | '\ufb02' => ['F', 'L']
  | '\ufb03' => ['F', 'F', 'I']
  | '\ufb04' => ['F', 'F', 'L']
  | '\ufb05' => ['S', 'T']
  | '\ufb06' => ['S', 'T']
  | _ => [c.toUpper]

/-- `clean_sequence(raw)`: drop FASTA header lines, join the rest,
uppercase, erase every character outside `A`-`Z`, then erase every letter
that is not a residue-table key. -/
def clean_sequence (raw : List Char) : List Char :=
  let kept := (splitLines raw).filter (fun l => !(isHeaderLine l))
  let upped := kept.flatten.flatMap pyUpper
  (upped.filter isUpperAZ).filter (fun c => (residueMass c).isSome)

/-- Every character of every emitted line occurs in the input. -/
theorem splitLinesAux_mem (raw : List Char) :
    ∀ flag, ∀ l ∈ splitLinesAux flag raw, ∀ c ∈ l, c ∈ raw := by
  induction raw with
  | nil =>
    intro flag l hl c hc
    rw [splitLinesAux, List.mem_singleton] at hl
    subst hl
    exact absurd hc (List.not_mem_nil c)
  | cons x xs ih =>
    intro flag l hl c hc
    rw [splitLinesAux] at hl
    by_cases hsw : flag = true ∧ x = '\n'
    · rw [if_pos hsw] at hl
      exact List.mem_cons_of_mem _ (ih false l hl c hc)
    · rw [if_neg hsw] at hl
      by_cases hbr : isLineBreak x = true
      · rw [if_pos hbr] at hl
        rcases List.mem_cons.mp hl with h | h
        · subst h
          exact absurd hc (List.not_mem_nil c)
        · exact List.mem_cons_of_mem _ (ih (x == '\r') l h c hc)
      · rw [if_neg hbr] at hl
        cases hsp : splitLinesAux false xs with
        | nil =>
          rw [hsp] at hl
          rw [List.mem_singleton] at hl
          subst hl
          rw [List.mem_singleton] at hc
          subst hc
          exact List.mem_cons_self c xs
        | cons l0 ls =>
          rw [hsp] at hl
          rcases List.mem_cons.mp hl with h | h
          · subst h
            rcases List.mem_cons.mp hc with h2 | h2
            · subst h2
              exact List.mem_cons_self c xs
            · have hl0 : l0 ∈ splitLinesAux false xs :=
                hsp ▸ List.mem_cons_self l0 ls
              exact List.mem_cons_of_mem _ (ih false l0 hl0 c h2)
          · have hls : l ∈ splitLinesAux false xs :=
              hsp ▸ List.mem_cons_of_mem l0 h
            exact List.mem_cons_of_mem _ (ih false l hls c hc)

/-- Every character of every line of `splitLines raw` occurs in `raw`. -/
theorem splitLines_mem (raw : List Char) :
    ∀ l ∈ splitLines raw, ∀ c ∈ l, c ∈ raw :=
  splitLinesAux_mem raw false

/-- A break-free line followed by a newline splits off as the first line. -/
theorem splitLines_header (header rest : List Char)
    (hbf : ∀ c ∈ header, isLineBreak c = false) :
    splitLines (header ++ '\n' :: rest) = header :: splitLines rest := by
  show splitLinesAux false (header ++ '\n' :: rest)
    = header :: splitLinesAux false rest
  induction header with
  | nil =>
    rw [List.nil_append, splitLinesAux,
      if_neg (show ¬(false = true ∧ '\n' = '\n') by simp),
      if_pos (show isLineBreak '\n' = true by decide)]
    rfl
  | cons c t ih =>
    have hc : isLineBreak c = false := hbf c (List.mem_cons_self c t)
    have ht := ih (fun u hu => hbf u (List.mem_cons_of_mem _ hu))
    rw [List.cons_append, splitLinesAux,
      if_neg (show ¬(false = true ∧ c = '\n') by simp),
      if_neg (show ¬(isLineBreak c = true) by simp [hc]), ht]

/-- Processing a text that continues with a newline: the lines before the
break are independent of what follows it, and with no pending `\r` at
least one line precedes the break. -/
theorem splitLinesAux_break (pre : List Char) :
    ∀ flag, ∃ P, (∀ ys : List Char,
        splitLinesAux flag (pre ++ '\n' :: ys)
          = P ++ splitLinesAux false ys) ∧
      (flag = false → P ≠ []) := by
  induction pre with
  | nil =>
    intro flag
    cases flag with
    | true =>
      refine ⟨[], fun ys => ?_, fun h => absurd h (by simp)⟩
      rw [List.nil_append, splitLinesAux,
        if_pos (show true = true ∧ '\n' = '\n' from ⟨rfl, rfl⟩),
        List.nil_append]
    | false =>
      refine ⟨[[]], fun ys => ?_, fun _ => by simp⟩
      rw [List.nil_append, splitLinesAux,
        if_neg (show ¬(false = true ∧ '\n' = '\n') by simp),
        if_pos (show isLineBreak '\n' = true by decide)]
      rfl
  | cons x xs ih =>
    intro flag
    by_cases hsw : flag = true ∧ x = '\n'
    · obtain ⟨P, hP, hne⟩ := ih false
      refine ⟨P, fun ys => ?_, fun _ => hne rfl⟩
      rw [List.cons_append, splitLinesAux, if_pos hsw, hP ys]
    · by_cases hbr : isLineBreak x = true
      · obtain ⟨P, hP, _⟩ := ih (x == '\r')
        refine ⟨[] :: P, fun ys => ?_, fun _ => by simp⟩
        rw [List.cons_append, splitLinesAux, if_neg hsw, if_pos hbr, hP ys]
        rfl
      · obtain ⟨P, hP, hne⟩ := ih false
        cases hP0 : P with
        | nil => exact absurd hP0 (hne rfl)
        | cons p0 ptl =>
          refine ⟨(x :: p0) :: ptl, fun ys => ?_, fun _ => by simp⟩
          rw [List.cons_append, splitLinesAux, if_neg hsw, if_neg hbr,
            hP ys, hP0]
          rfl

/-- C6: `clean_sequence` output contains only residue-table keys; a FASTA
header line contributes nothing to the result, whether it is the first
line or follows any earlier text; and empty or entirely invalid input
yields the empty sequence. -/
theorem clean_sequence_spec (raw pre post header : List Char)
    (hbf : ∀ c ∈ header, isLineBreak c = false)
    (hhead : isHeaderLine header = true) :
    (∀ c ∈ clean_sequence raw, (residueMass c).isSome) ∧
    clean_sequence (header ++ '\n' :: post) = clean_sequence post ∧
    clean_sequence (pre ++ '\n' :: (header ++ '\n' :: post))
      = clean_sequence (pre ++ '\n' :: post) ∧
    clean_sequence [] = [] ∧
    ((∀ c ∈ raw, ∀ u ∈ pyUpper c, ¬ (residueMass u).isSome) →
      clean_sequence raw = []) := by
  refine ⟨?_, ?_, ?_, by rfl, ?_⟩
  · intro c hc
    simp only [clean_sequence] at hc
    simpa using List.of_mem_filter hc
  · rw [clean_sequence, clean_sequence,
      splitLines_header header post hbf]
    simp [hhead]
  · obtain ⟨P, hP, _⟩ := splitLinesAux_break pre false
    have h1 : splitLines (pre ++ '\n' :: (header ++ '\n' :: post))
        = P ++ (header :: splitLines post) := by
      show splitLinesAux false (pre ++ '\n' :: (header ++ '\n' :: post))
        = P ++ (header :: splitLinesAux false post)
      rw [hP (header ++ '\n' :: post)]
      rw [show splitLinesAux false (header ++ '\n' :: post)
        = header :: splitLinesAux false post
        from splitLines_header header post hbf]
    have h2 : splitLines (pre ++ '\n' :: post)
        = P ++ splitLines post := hP post
    rw [clean_sequence, clean_sequence, h1, h2]
    simp [hhead, List.filter_append]
  · intro hbad
    rw [List.eq_nil_iff_forall_not_mem]
    intro c hc
    simp only [clean_sequence] at hc
    have hsome : (residueMass c).isSome := by
      simpa using List.of_mem_filter hc
    have hc2 : c ∈ (((splitLines raw).filter
        (fun l => !(isHeaderLine l))).flatten.flatMap pyUpper) :=
      List.mem_of_mem_filter (List.mem_of_mem_filter hc)
    obtain ⟨c0, hc0, hu⟩ := List.mem_flatMap.mp hc2
    obtain ⟨l, hl, hcl⟩ := List.mem_flatten.mp hc0
    have hraw : c0 ∈ raw :=
      splitLines_mem raw l (List.mem_of_mem_filter hl) c0 hcl
    exact hbad c0 hraw c hu hsome

theorem clean_sequence_spec_witness :
    (∀ c ∈ clean_sequence ['>', 'x', '\n', 'M', 'q'],
      (residueMass c).isSome) ∧
    clean_sequence (['>', 'x'] ++ '\n' :: ['M', 'q']) =
      clean_sequence ['M', 'q'] ∧
    clean_sequence (['A'] ++ '\n' :: (['>', 'x'] ++ '\n' :: ['M', 'q']))
      = clean_sequence (['A'] ++ '\n' :: ['M', 'q']) ∧
    clean_sequence [] = [] ∧
    ((∀ c ∈ (['>', 'x', '\n', 'M', 'q'] : List Char),
        ∀ u ∈ pyUpper c, ¬ (residueMass u).isSome) →
      clean_sequence ['>', 'x', '\n', 'M', 'q'] = []) :=
  clean_sequence_spec ['>', 'x', '\n', 'M', 'q'] ['A'] ['M', 'q'] ['>', 'x']
    (by decide) (by decide)

/-- Left-to-right scanner behind `find_his_runs`: `i` is the absolute
index of the head of the remaining input, `k` the length of the pending
run of `H` ending just before index `i`.  A pending run of length at
least `min_len` is emitted as the half-open span `(i - k, i)` when it
ends, exactly as `re.finditer(r"H{min_len,}")` reports greedy maximal
matches (for `min_len ≥ 1`). -/
def runsAux (minLen : ℕ) : List Char → ℕ → ℕ → List (ℕ × ℕ)
  | [], i, k => if minLen ≤ k ∧ 0 < k then [(i - k, i)] else []
  | c :: t, i, k =>
    if c = 'H' then runsAux minLen t (i + 1) (k + 1)
    else (if minLen ≤ k ∧ 0 < k then [(i - k, i)] else [])
      ++ runsAux minLen t (i + 1) 0

/-- `find_his_runs(seq, min_len)`: the 0-based end-exclusive spans of the
maximal runs of `H` of length at least `min_len`. -/
def find_his_runs (seq : List Char) (minLen : ℕ) : List (ℕ × ℕ) :=
  runsAux minLen seq 0 0

/-- `(s, e)` delimits a maximal contiguous run of `H` of length at least
`m` in `v` (0-based, end-exclusive). -/
def IsMaxRun (v : List Char) (m s e : ℕ) : Prop :=
  s < e ∧ e ≤ v.length ∧ m ≤ e - s ∧
  (∀ j, s ≤ j → j < e → v.getD j ' ' = 'H') ∧
  (s = 0 ∨ v.getD (s - 1) ' ' ≠ 'H') ∧
  (e = v.length ∨ v.getD e ' ' ≠ 'H')

theorem getD_replicate (k j : ℕ) (c d : Char) (h : j < k) :
    (List.replicate k c).getD j d = c := by
  induction k generalizing j with
  | zero => omega
  | succ n ih =>
    cases j with
    | zero => rfl
    | succ j' => exact ih j' (by omega)

/-- The maximal runs of an all-`H` string: the whole string, when long
enough. -/
theorem IsMaxRun_replicate (k m a b : ℕ) (hm : 1 ≤ m) :
    IsMaxRun (List.replicate k 'H') m a b ↔ (a = 0 ∧ b = k ∧ m ≤ k) := by
  constructor
  · rintro ⟨hab, hbe, hm', hall, hleft, hright⟩
    rw [List.length_replicate] at hbe hright
    have ha : a = 0 := by
      rcases hleft with h | h
      · exact h
      · by_contra hne
        exact h (getD_replicate k (a - 1) 'H' ' ' (by omega))
    have hb : b = k := by
      rcases hright with h | h
      · exact h
      · by_contra hne
        exact h (getD_replicate k b 'H' ' ' (by omega))
    exact ⟨ha, hb, by omega⟩
  · rintro ⟨ha, hb, hk⟩
    refine ⟨by omega, ?_, by omega, ?_, Or.inl ha, ?_⟩
    · rw [List.length_replicate]
      omega
    · intro j h0 hj
      exact getD_replicate k j 'H' ' ' (by omega)
    · left
      rw [List.length_replicate]
      omega

/-- Decomposition of the maximal runs of `H^k ++ c :: t` (`c ≠ 'H'`): the
leading block when it qualifies, plus the runs of `t` shifted by `k+1`. -/
theorem IsMaxRun_block (k : ℕ) (c : Char) (hc : c ≠ 'H') (t : List Char)
    (m a b : ℕ) (hm : 1 ≤ m) :
    IsMaxRun (List.replicate k 'H' ++ c :: t) m a b ↔
      ((a = 0 ∧ b = k ∧ m ≤ k) ∨
       (∃ p q, a = (k + 1) + p ∧ b = (k + 1) + q ∧ IsMaxRun t m p q)) := by
  have hlen : (List.replicate k 'H' ++ c :: t).length = k + t.length + 1 := by
    simp [List.length_append, List.length_replicate]
    omega
  have hH : ∀ j, j < k →
      (List.replicate k 'H' ++ c :: t).getD j ' ' = 'H' := by
    intro j hj
    rw [List.getD_append _ _ _ _ (by simpa using hj)]
    exact getD_replicate k j 'H' ' ' hj
  have hc0 : (List.replicate k 'H' ++ c :: t).getD k ' ' = c := by
    rw [List.getD_append_right _ _ _ _ (by simp)]
    simp
  have ht : ∀ j, k + 1 ≤ j →
      (List.replicate k 'H' ++ c :: t).getD j ' '
        = t.getD (j - (k + 1)) ' ' := by
    intro j hj
    rw [List.getD_append_right _ _ _ _ (by simp; omega)]
    have e : j - (List.replicate k 'H').length = (j - (k + 1)) + 1 := by
      simp [List.length_replicate]
      omega
    rw [e]
    rfl
  constructor
  · rintro ⟨hab, hbe, hm', hall, hleft, hright⟩
    rw [hlen] at hbe hright
    by_cases hak : a < k
    · left
      have hbk : b ≤ k := by
        by_contra hbk
        have hx := hall k (by omega) (by omega)
        rw [hc0] at hx
        exact hc hx
      have ha0 : a = 0 := by
        rcases hleft with h | h
        · exact h
        · by_contra hne
          exact h (hH (a - 1) (by omega))
      have hbk' : b = k := by
        rcases hright with h | h
        · omega
        · by_contra hne
          exact h (hH b (by omega))
      exact ⟨ha0, hbk', by omega⟩
    · right
      have hak1 : k + 1 ≤ a := by
        rcases Nat.lt_or_ge a (k + 1) with h | h
        · exfalso
          have ha : a = k := by omega
          have hx := hall a (le_refl a) hab
          rw [ha, hc0] at hx
          exact hc hx
        · exact h
      refine ⟨a - (k + 1), b - (k + 1), by omega, by omega,
        by omega, by omega, by omega, ?_, ?_, ?_⟩
      · intro j hj1 hj2
        have hx := hall ((k + 1) + j) (by omega) (by omega)
        rw [ht ((k + 1) + j) (by omega)] at hx
        have e : (k + 1) + j - (k + 1) = j := by omega
        rw [e] at hx
        exact hx
      · by_cases hpa : a - (k + 1) = 0
        · exact Or.inl hpa
        · right
          rcases hleft with h | h
          · omega
          · intro hcon
            apply h
            rw [ht (a - 1) (by omega)]
            have e : a - 1 - (k + 1) = a - (k + 1) - 1 := by omega
            rw [e]
            exact hcon
      · rcases hright with h | h
        · left
          omega
        · right
          intro hcon
          apply h
          rw [ht b (by omega)]
          exact hcon
  · rintro (⟨ha, hb, hk⟩ | ⟨p, q, hap, hbq, hpq⟩)
    · subst ha; subst hb
      refine ⟨by omega, by rw [hlen]; omega, by omega,
        fun j h0 hj => hH j hj, Or.inl rfl, ?_⟩
      right
      rw [hc0]
      exact hc
    · obtain ⟨hpq1, hpq2, hpq3, hall, hleft, hright⟩ := hpq
      subst hap; subst hbq
      refine ⟨by omega, by rw [hlen]; omega, by omega, ?_, ?_, ?_⟩
      · intro j hj1 hj2
        rw [ht j (by omega)]
        exact hall (j - (k + 1)) (by omega) (by omega)
      · right
        by_cases hp0 : p = 0
        · subst hp0
          have e : (k + 1) + 0 - 1 = k := by omega
          rw [e, hc0]
          exact hc
        · rw [ht ((k + 1) + p - 1) (by omega)]
          have e : (k + 1) + p - 1 - (k + 1) = p - 1 := by omega
          rw [e]
          rcases hleft with h | h
          · exact absurd h hp0
          · exact h
      · rcases hright with h | h
        · left
          rw [hlen]
          omega
        · right
          rw [ht ((k + 1) + q) (by omega)]
          have e : (k + 1) + q - (k + 1) = q := by omega
          rw [e]
          exact h

/-- Membership characterization of the scanner: a span is emitted by
`runsAux` iff it is a maximal qualifying run of the virtual input
`H^k ++ l`, shifted by the base index `j`. -/
theorem mem_runsAux (m : ℕ) (hm : 1 ≤ m) :
    ∀ (l : List Char) (k j s e : ℕ),
      ((s, e) ∈ runsAux m l (j + k) k ↔
        ∃ a b, s = j + a ∧ e = j + b ∧
          IsMaxRun (List.replicate k 'H' ++ l) m a b) := by
  intro l
  induction l with
  | nil =>
    intro k j s e
    rw [runsAux]
    constructor
    · intro hmem
      by_cases hg : m ≤ k ∧ 0 < k
      · rw [if_pos hg] at hmem
        have hse := List.mem_singleton.mp hmem
        rw [Prod.mk.injEq] at hse
        refine ⟨0, k, by omega, by omega, ?_⟩
        rw [List.append_nil]
        exact (IsMaxRun_replicate k m 0 k hm).mpr ⟨rfl, rfl, hg.1⟩
      · rw [if_neg hg] at hmem
        simp at hmem
    · rintro ⟨a, b, hs, he, hrun⟩
      rw [List.append_nil] at hrun
      obtain ⟨ha, hb, hk⟩ := (IsMaxRun_replicate k m a b hm).mp hrun
      rw [if_pos ⟨hk, by omega⟩]
      rw [List.mem_singleton, Prod.mk.injEq]
      constructor <;> omega
  | cons c t ih =>
    intro k j s e
    by_cases hc : c = 'H'
    · subst hc
      rw [runsAux, if_pos rfl]
      have e1 : j + k + 1 = j + (k + 1) := by omega
      rw [e1, ih (k + 1) j s e]
      have e2 : List.replicate (k + 1) 'H' ++ t
          = List.replicate k 'H' ++ 'H' :: t := by
        rw [List.replicate_succ', List.append_assoc]
        rfl
      rw [e2]
    · rw [runsAux, if_neg hc, List.mem_append]
      have e1 : j + k + 1 = (j + k + 1) + 0 := by omega
      constructor
      · intro hmem
        rcases hmem with hmem | hmem
        · by_cases hg : m ≤ k ∧ 0 < k
          · rw [if_pos hg] at hmem
            have hse := List.mem_singleton.mp hmem
            rw [Prod.mk.injEq] at hse
            refine ⟨0, k, by omega, by omega, ?_⟩
            rw [IsMaxRun_block k c hc t m 0 k hm]
            exact Or.inl ⟨rfl, rfl, hg.1⟩
          · rw [if_neg hg] at hmem
            simp at hmem
        · rw [e1, ih 0 (j + k + 1) s e] at hmem
          obtain ⟨a, b, hs, he, hrun⟩ := hmem
          rw [List.replicate_zero, List.nil_append] at hrun
          refine ⟨(k + 1) + a, (k + 1) + b, by omega, by omega, ?_⟩
          rw [IsMaxRun_block k c hc t m _ _ hm]
          exact Or.inr ⟨a, b, rfl, rfl, hrun⟩
      · rintro ⟨a, b, hs, he, hrun⟩
        rw [IsMaxRun_block k c hc t m a b hm] at hrun
        rcases hrun with ⟨ha, hb, hk⟩ | ⟨p, q, hap, hbq, hpq⟩
        · left
          rw [if_pos ⟨hk, by omega⟩]
          rw [List.mem_singleton, Prod.mk.injEq]
          constructor <;> omega
        · right
          rw [e1, ih 0 (j + k + 1) s e]
          refine ⟨p, q, by omega, by omega, ?_⟩
          rw [List.replicate_zero, List.nil_append]
          exact hpq

/-- Every span emitted by the scanner starts at or after the start of the
pending run. -/
theorem runsAux_start_le (m : ℕ) :
    ∀ (l : List Char) (k j : ℕ) (p : ℕ × ℕ),
      p ∈ runsAux m l (j + k) k → j ≤ p.1 := by
  intro l
  induction l with
  | nil =>
    intro k j p hp
    rw [runsAux] at hp
    by_cases hg : m ≤ k ∧ 0 < k
    · rw [if_pos hg] at hp
      rw [List.mem_singleton.mp hp]
      show j ≤ j + k - k
      omega
    · rw [if_neg hg] at hp
      simp at hp
  | cons c t ih =>
    intro k j p hp
    by_cases hc : c = 'H'
    · subst hc
      rw [runsAux, if_pos rfl] at hp
      have e1 : j + k + 1 = j + (k + 1) := by omega
      rw [e1] at hp
      exact ih (k + 1) j p hp
    · rw [runsAux, if_neg hc, List.mem_append] at hp
      rcases hp with hp | hp
      · by_cases hg : m ≤ k ∧ 0 < k
        · rw [if_pos hg] at hp
          rw [List.mem_singleton.mp hp]
          show j ≤ j + k - k
          omega
        · rw [if_neg hg] at hp
          simp at hp
      · have e1 : j + k + 1 = (j + k + 1) + 0 := by omega
        rw [e1] at hp
        have := ih 0 (j + k + 1) p hp
        omega

/-- The emitted spans are disjoint and in left-to-right order. -/
theorem runsAux_pairwise (m : ℕ) :
    ∀ (l : List Char) (k j : ℕ),
      List.Pairwise (fun p q => p.2 < q.1) (runsAux m l (j + k) k) := by
  intro l
  induction l with
  | nil =>
    intro k j
    rw [runsAux]
    by_cases hg : m ≤ k ∧ 0 < k
    · rw [if_pos hg]
      exact List.pairwise_singleton _ _
    · rw [if_neg hg]
      exact List.Pairwise.nil
  | cons c t ih =>
    intro k j
    by_cases hc : c = 'H'
    · subst hc
      rw [runsAux, if_pos rfl]
      have e1 : j + k + 1 = j + (k + 1) := by omega
      rw [e1]
      exact ih (k + 1) j
    · rw [runsAux, if_neg hc]
      have e1 : j + k + 1 = (j + k + 1) + 0 := by omega
      by_cases hg : m ≤ k ∧ 0 < k
      · rw [if_pos hg, List.singleton_append]
        refine List.Pairwise.cons ?_ ?_
        · intro q hq
          rw [e1] at hq
          have := runsAux_start_le m t 0 (j + k + 1) q hq
          show (j + k - k, j + k).2 < q.1
          simp only []
          omega
        · rw [e1]
          exact ih 0 (j + k + 1)
      · rw [if_neg hg, List.nil_append, e1]
        exact ih 0 (j + k + 1)

/-- C8: `find_his_runs` returns exactly the maximal contiguous runs of
`H` of length at least `minLen` (for `minLen ≥ 1`) as 0-based end-exclusive
spans, disjoint and in left-to-right order, the empty list when no run
qualifies, and the two spans (2, 8) and (10, 17) on the sequence
`AAHHHHHHBBHHHHHHHCC` with `minLen = 6`. -/
theorem find_his_runs_spec (seq : List Char) (minLen : ℕ) (hm : 1 ≤ minLen) :
    (∀ s e, ((s, e) ∈ find_his_runs seq minLen ↔ IsMaxRun seq minLen s e)) ∧
    List.Pairwise (fun p q => p.2 < q.1) (find_his_runs seq minLen) ∧
    ((∀ s e, ¬ IsMaxRun seq minLen s e) → find_his_runs seq minLen = []) ∧
    find_his_runs
      ['A', 'A', 'H', 'H', 'H', 'H', 'H', 'H', 'B', 'B',
       'H', 'H', 'H', 'H', 'H', 'H', 'H', 'C', 'C'] 6 = [(2, 8), (10, 17)] := by
  have hmem : ∀ s e,
      ((s, e) ∈ find_his_runs seq minLen ↔ IsMaxRun seq minLen s e) := by
    intro s e
    rw [find_his_runs]
    rw [show runsAux minLen seq 0 0 = runsAux minLen seq (0 + 0) 0 from rfl]
    rw [mem_runsAux minLen hm seq 0 0 s e]
    constructor
    · rintro ⟨a, b, hs, he, hrun⟩
      rw [List.replicate_zero, List.nil_append] at hrun
      rw [hs, he]
      simpa using hrun
    · intro h
      exact ⟨s, e, by omega, by omega, by simpa using h⟩
  refine ⟨hmem, ?_, ?_, by decide⟩
  · exact runsAux_pairwise minLen seq 0 0
  · intro hnone
    rw [List.eq_nil_iff_forall_not_mem]
    intro p hp
    obtain ⟨s, e⟩ := p
    exact hnone s e ((hmem s e).mp hp)

theorem find_his_runs_spec_witness :
    ((2, 8) ∈ find_his_runs
      ['A', 'A', 'H', 'H', 'H', 'H', 'H', 'H', 'B', 'B',
       'H', 'H', 'H', 'H', 'H', 'H', 'H', 'C', 'C'] 6 ↔
      IsMaxRun
        ['A', 'A', 'H', 'H', 'H', 'H', 'H', 'H', 'B', 'B',
         'H', 'H', 'H', 'H', 'H', 'H', 'H', 'C', 'C'] 6 2 8) ∧
    find_his_runs
      ['A', 'A', 'H', 'H', 'H', 'H', 'H', 'H', 'B', 'B',
       'H', 'H', 'H', 'H', 'H', 'H', 'H', 'C', 'C'] 6 = [(2, 8), (10, 17)] :=
  ⟨((find_his_runs_spec
      ['A', 'A', 'H', 'H', 'H', 'H', 'H', 'H', 'B', 'B',
       'H', 'H', 'H', 'H', 'H', 'H', 'H', 'C', 'C'] 6 (by norm_num)).1 2 8),
   (find_his_runs_spec
      ['A', 'A', 'H', 'H', 'H', 'H', 'H', 'H', 'B', 'B',
       'H', 'H', 'H', 'H', 'H', 'H', 'H', 'C', 'C'] 6 (by norm_num)).2.2.2⟩

/-- C4: for nonzero stock, `c1v1_ml` returns finalConc × finalVolume / stockConc
and satisfies the conservation law stockConc × volume = finalConc × finalVolume;
`pct_vv_ml` returns (finalPct / stockPct) × finalVolume; and
`c1v1_ml 30 50 1000 = 1.5` exactly. -/
theorem c1v1_conservation (fv fc sc fp sp : ℚ) (hsc : sc ≠ 0) (hsp : sp ≠ 0) :
    c1v1_ml fv fc sc = fc * fv / sc ∧
    sc * c1v1_ml fv fc sc = fc * fv ∧
    pct_vv_ml fv fp sp = fp / sp * fv ∧
    c1v1_ml 30 50 1000 = 1.5 := by
  refine ⟨by simp [c1v1_ml, hsc], ?_, by simp [pct_vv_ml, hsp], by norm_num [c1v1_ml]⟩
  rw [c1v1_ml, if_neg hsc]
  field_simp

theorem c1v1_conservation_witness :
    c1v1_ml 30 50 1000 = 50 * 30 / 1000 ∧
    1000 * c1v1_ml 30 50 1000 = 50 * 30 ∧
    pct_vv_ml 30 1 10 = 1 / 10 * 30 ∧
    c1v1_ml 30 50 1000 = 1.5 :=
  c1v1_conservation 30 50 1000 1 10 (by norm_num) (by norm_num)

/-- C5: both dilution laws are total at zero stock: they return 0 (a
defined value, not an error) whenever the stock concentration is 0. -/
theorem zero_stock_gives_zero (fv fc fp : ℚ) :
    c1v1_ml fv fc 0 = 0 ∧ pct_vv_ml fv fp 0 = 0 := by
  constructor <;> simp [c1v1_ml, pct_vv_ml]

/-- C2 counterexample: with the non-negative inputs finalVolume = 30,
finalConc = 2000, stockConc = 1000, the computed volume is 60, which
exceeds the final volume, so the claimed bound fails. -/
theorem dispense_volume_counterexample :
    (0 : ℚ) ≤ 30 ∧ (0 : ℚ) ≤ 2000 ∧ (0 : ℚ) ≤ 1000 ∧
    c1v1_ml 30 2000 1000 = 60 ∧ ¬ c1v1_ml 30 2000 1000 ≤ 30 := by
  norm_num [c1v1_ml]

/-- C2 amended: for non-negative inputs whose target value does not exceed
the stock value (finalConc ≤ stockConc, resp. finalPct ≤ stockPct), the
computed dispense volume is non-negative and at most the final volume. -/
theorem dispense_volume_bounds (fv fc sc fp sp : ℚ)
    (hfv : 0 ≤ fv) (hfc : 0 ≤ fc) (hsc : 0 ≤ sc) (hfp : 0 ≤ fp) (hsp : 0 ≤ sp)
    (h1 : fc ≤ sc) (h2 : fp ≤ sp) :
    (0 ≤ c1v1_ml fv fc sc ∧ c1v1_ml fv fc sc ≤ fv) ∧
    (0 ≤ pct_vv_ml fv fp sp ∧ pct_vv_ml fv fp sp ≤ fv) := by
  constructor
  · rw [c1v1_ml]
    split_ifs with h
    · exact ⟨le_refl 0, hfv⟩
    · have hsc' : 0 < sc := lt_of_le_of_ne hsc (Ne.symm h)
      constructor
      · positivity
      · rw [div_le_iff₀ hsc']
        nlinarith
  · rw [pct_vv_ml]
    split_ifs with h
    · exact ⟨le_refl 0, hfv⟩
    · have hsp' : 0 < sp := lt_of_le_of_ne hsp (Ne.symm h)
      constructor
      · positivity
      · have hq : fp / sp ≤ 1 := (div_le_one hsp').mpr h2
        calc fp / sp * fv ≤ 1 * fv := by
              apply mul_le_mul_of_nonneg_right hq hfv
          _ = fv := one_mul fv

theorem dispense_volume_bounds_witness :
    (0 ≤ c1v1_ml 30 50 1000 ∧ c1v1_ml 30 50 1000 ≤ 30) ∧
    (0 ≤ pct_vv_ml 30 1 10 ∧ pct_vv_ml 30 1 10 ≤ 30) :=
  dispense_volume_bounds 30 50 1000 1 10 (by norm_num) (by norm_num)
    (by norm_num) (by norm_num) (by norm_num) (by norm_num) (by norm_num)

/-- C9: `recommend_gel` is exactly the step function with inclusive upper
bounds 10, 25, 60, and takes the stated values at the boundary inputs
10.0 and 10.01. -/
theorem recommend_gel_spec (mw : ℚ) :
    (mw ≤ 10 → recommend_gel mw = ("Tricine", 16.5)) ∧
    (10 < mw → mw ≤ 25 → recommend_gel mw = ("Tris-Glycine", 15.0)) ∧
    (25 < mw → mw ≤ 60 → recommend_gel mw = ("Tris-Glycine", 12.0)) ∧
    (60 < mw → recommend_gel mw = ("Tris-Glycine", 10.0)) ∧
    recommend_gel 10 = ("Tricine", 16.5) ∧
    recommend_gel 10.01 = ("Tris-Glycine", 15.0) := by
  refine ⟨?_, ?_, ?_, ?_, by norm_num [recommend_gel], by norm_num [recommend_gel]⟩ <;>
    intros <;> rw [recommend_gel] <;> split_ifs <;> first | rfl | linarith

theorem recommend_gel_spec_witness :
    recommend_gel 10.01 = ("Tris-Glycine", 15.0) :=
  (recommend_gel_spec 10.01).2.1 (by norm_num) (by norm_num)

/-- `_mw_to_migration(mw_kda, gel_system, gel_pct)`: clamp the molecular
weight into the chemistry's resolving range, interpolate logarithmically,
add the linear gel-percentage correction, clamp into [0.02, 0.98]. -/
noncomputable def mw_to_migration (mw_kda : ℝ) (gel_system : String)
    (gel_pct : ℝ) : ℝ :=
  let hi : ℝ := if gel_system = "Tris-Glycine" then 250 else 100
  let lo : ℝ := if gel_system = "Tris-Glycine" then 10 else 1
  let mw := min (max mw_kda lo) hi
  let base := (Real.logb 10 hi - Real.logb 10 mw)
    / (Real.logb 10 hi - Real.logb 10 lo)
  let y := base + (gel_pct - 12.0) * 0.015
  min (max y 0.02) 0.98

/-- Clamp `x` into `[lo, hi]`. -/
noncomputable def clamp (lo hi x : ℝ) : ℝ := min (max x lo) hi

/-- Modelled from the spec words of the migration contract: base position
(log10 rangeHigh − log10 clampedMw) / (log10 rangeHigh − log10 rangeLow)
with ranges [10, 250] for Tris-Glycine and [1, 100] for Tricine, plus the
correction (gelPercent − 12.0) × 0.015, clamped into [0.02, 0.98]. -/
noncomputable def migrationPosition_spec (mw_kda : ℝ) (gel_system : String)
    (gel_pct : ℝ) : ℝ :=
  let rangeHigh : ℝ := if gel_system = "Tricine" then 100 else 250
  let rangeLow : ℝ := if gel_system = "Tricine" then 1 else 10
  let clampedMw := clamp rangeLow rangeHigh mw_kda
  let base := (Real.logb 10 rangeHigh - Real.logb 10 clampedMw)
    / (Real.logb 10 rangeHigh - Real.logb 10 rangeLow)
  clamp 0.02 0.98 (base + (gel_pct - 12.0) * 0.015)

/-- C7: for both gel chemistries, `_mw_to_migration` computes exactly the
specified clamped logarithmic interpolation, and its output always lies in
[0.02, 0.98], however far the molecular weight is outside the resolving
range. -/
theorem mw_to_migration_spec (mw gel_pct : ℝ) (gs : String)
    (h : gs = "Tris-Glycine" ∨ gs = "Tricine") :
    mw_to_migration mw gs gel_pct = migrationPosition_spec mw gs gel_pct ∧
    0.02 ≤ mw_to_migration mw gs gel_pct ∧
    mw_to_migration mw gs gel_pct ≤ 0.98 := by
  refine ⟨?_, ?_, ?_⟩
  · rcases h with h | h <;> subst h <;>
      simp only [mw_to_migration, migrationPosition_spec, clamp,
        if_pos rfl, String.reduceEq, if_neg, ite_true, ite_false,
        reduceIte]
  · rw [mw_to_migration]
    refine le_min (le_trans ?_ (le_max_right _ _)) (by norm_num)
    norm_num
  · rw [mw_to_migration]
    exact min_le_right _ _

theorem mw_to_migration_spec_witness :
    mw_to_migration 500 "Tris-Glycine" 15
      = migrationPosition_spec 500 "Tris-Glycine" 15 ∧
    0.02 ≤ mw_to_migration 500 "Tris-Glycine" 15 ∧
    mw_to_migration 500 "Tris-Glycine" 15 ≤ 0.98 :=
  mw_to_migration_spec 500 15 "Tris-Glycine" (Or.inl rfl)

end HisTag
